import Mathlib

/-! Verification development for the NVDA/QQQ return-analysis pipeline.

The definitions below are a shallow embedding of the repository code: the
ETL transform (transform_data in etl_to_csv.py and etl_yfinance_postgres.py,
identical logic) and the analytics functions (analysis_and_report.py).
Prices and returns are modelled as rationals; quantities whose source
computation involves a square root (standard deviations, annualized
volatility, Sharpe values, Pearson correlation) live in the reals.  A
missing table cell (pandas NaN) is Option.none, and an analytics value that
the source produces as NaN or as a float infinity is likewise Option.none.
Analytics functions return a pair whose first component is the state of the
frame argument after the call (pandas column assignment mutates the frame;
functions without such an assignment return the argument unchanged). -/

namespace Nvda

/-- Mean of a list of rationals, as the pandas mean: sum divided by length
(groups are nonempty, so the empty case never occurs in context). -/
def qmean (l : List ℚ) : ℚ := l.sum / (l.length : ℚ)

/-- Sum of squared deviations from the mean. -/
def centeredSq (l : List ℚ) : ℚ := (l.map (fun x => (x - qmean l) ^ 2)).sum

/-- Sample variance with the N-1 denominator (pandas ddof = 1); junk value 0
below two observations (callers guard on the length). -/
def svar (l : List ℚ) : ℚ := centeredSq l / ((l.length : ℚ) - 1)

/-- Sample standard deviation, undefined (NaN) below two observations, as
pandas Series.std with ddof = 1. -/
noncomputable def sstd (l : List ℚ) : Option ℝ :=
  if 2 ≤ l.length then some (Real.sqrt (svar l)) else none

/-- A close-price column: one optional price per trading date (none = NaN). -/
abbrev CloseCol := List (Option ℚ)

/-- pandas pct_change on one column: position 0 is NaN, position i is
price[i]/price[i-1] - 1 when both prices are present, NaN otherwise (on
inputs whose gaps are only leading, this is also what the pad fill of older
pandas versions produces). -/
def pctChange : CloseCol → CloseCol
  | [] => []
  | c :: rest =>
      none :: ((c :: rest).zip rest).map (fun pq =>
        match pq with
        | (some p, some q) => some (q / p - 1)
        | _ => none)

/-- Models the single-ticker branch of transform_data: the sole close column
is relabelled with the one requested ticker. -/
def normalizeClose (tickers : List String) (table : List (String × CloseCol)) :
    List (String × CloseCol) :=
  if tickers.length = 1 then
    match table with
    | [] => []
    | c :: _ => [(tickers.headD "", c.2)]
  else table

/-- Number of rows of a table (length of the date index, first column). -/
def tableLen (table : List (String × CloseCol)) : Nat :=
  match table with
  | [] => 0
  | c :: _ => c.2.length

/-- Per-column daily returns: adj_close.pct_change(). -/
def returnsTable (table : List (String × CloseCol)) : List (String × CloseCol) :=
  table.map (fun c => (c.1, pctChange c.2))

/-- True when every column of the returns table has a defined value in row i;
a row-wise dropna (default how = any) keeps exactly these rows. -/
def rowDefined (rt : List (String × CloseCol)) (i : Nat) : Bool :=
  rt.all (fun c => (c.2.getD i none).isSome)

/-- Indices of the rows that survive dropna, in ascending order. -/
def survIdx (rt : List (String × CloseCol)) (n : Nat) : List Nat :=
  (List.range n).filter (fun i => rowDefined rt i)

/-- The melt value_vars: the requested tickers, except that a single-column
returns frame uses its own column label. -/
def valueVars (tickers : List String) (rt : List (String × CloseCol)) : List String :=
  if rt.length = 1 then rt.map (fun c => c.1) else tickers

/-- Column of a keyed table with the given label (first match). -/
def colOf (rt : List (String × CloseCol)) (v : String) : CloseCol :=
  match rt.find? (fun c => c.1 == v) with
  | some c => c.2
  | none => []

/-- One long-form daily-return record. -/
structure RetRec where
  date : Nat
  ticker : String
  daily_return : ℚ
deriving DecidableEq, Repr

/-- Shallow embedding of transform_data (etl_to_csv.py lines 48-77 and
etl_yfinance_postgres.py lines 94-129): per-column pct_change, row-wise
dropna, then melt over value_vars, emitted column by column.  A melt whose
value_vars contain a label that is not a column raises KeyError; the
surrounding try/except turns any exception into a None result, embedded
here as none. -/
def transform_data (tickers : List String) (table : List (String × CloseCol)) :
    Option (List RetRec) :=
  let ac := normalizeClose tickers table
  let rt := returnsTable ac
  let n := tableLen ac
  let vv := valueVars tickers rt
  if vv.all (fun v => rt.any (fun c => c.1 == v)) then
    some (vv.flatMap (fun v =>
      (survIdx rt n).filterMap (fun i =>
        ((colOf rt v).getD i none).map (fun r => ⟨i, v, r⟩))))
  else none

/-- Number of output records carrying the given ticker. -/
def countTicker (out : List RetRec) (t : String) : Nat :=
  (out.filter (fun r => r.ticker == t)).length

/-- Dates of the output records carrying the given ticker, in output order. -/
def datesOfTicker (out : List RetRec) (t : String) : List Nat :=
  (out.filter (fun r => r.ticker == t)).map (fun r => r.date)

/-- Long-form analysis frame: the rows read from rendimientos_diarios.csv
plus any columns later assigned into the frame (extra carries them). -/
structure DF where
  rows : List RetRec
  extra : List (String × List ℚ)
deriving DecidableEq, Repr

/-- The daily returns of one ticker, in row order. -/
def returnsOf (df : DF) (t : String) : List ℚ :=
  df.rows.filterMap (fun r => if r.ticker == t then some r.daily_return else none)

/-- Sorted deduplicated keys (pandas groupby and pivot sort their keys). -/
def dedupSort {α : Type} [DecidableEq α] [LinearOrder α] (l : List α) : List α :=
  List.insertionSort (fun a b => a ≤ b) l.dedup

/-- Group keys of groupby ticker, sorted ascending. -/
def groupTickers (df : DF) : List String :=
  dedupSort (df.rows.map (fun r => r.ticker))

/-- Linear-interpolation percentile of a sorted nonempty sample (the
conventional method used by describe quartiles). -/
def percentileQ (s : List ℚ) (q : ℚ) : ℚ :=
  let h : ℚ := q * ((s.length : ℚ) - 1)
  let lo : Nat := h.floor.toNat
  let x0 := s.getD lo 0
  let x1 := s.getD (lo + 1) x0
  x0 + (h - (h.floor : ℚ)) * (x1 - x0)

/-- One row of groupby describe. -/
structure StatsRow where
  count : Nat
  mean : ℚ
  std : Option ℝ
  min : ℚ
  q25 : ℚ
  q50 : ℚ
  q75 : ℚ
  max : ℚ

/-- Embeds calculate_statistics (analysis_and_report.py lines 8-11):
df.groupby(ticker)[daily_return].describe().  First component: the state of
the frame argument after the call. -/
noncomputable def calculate_statistics (df : DF) : DF × List (String × StatsRow) :=
  (df, (groupTickers df).map (fun t =>
    let xs := returnsOf df t
    let s := List.insertionSort (fun a b => a ≤ b) xs
    (t, { count := xs.length, mean := qmean xs, std := sstd xs,
          min := s.headD 0, q25 := percentileQ s (1/4), q50 := percentileQ s (1/2),
          q75 := percentileQ s (3/4), max := s.getLastD 0 })))

/-- Running product of (1 + x) minus one, from a given accumulator. -/
def cumProdFrom (acc : ℚ) : List ℚ → List ℚ
  | [] => []
  | x :: rest => (acc * (1 + x) - 1) :: cumProdFrom (acc * (1 + x)) rest

/-- Writes a named column into a column store (pandas assignment replaces an
existing column or appends a new one). -/
def setCol (cols : List (String × List ℚ)) (name : String) (vals : List ℚ) :
    List (String × List ℚ) :=
  if cols.any (fun c => c.1 == name) then
    cols.map (fun c => if c.1 == name then (name, vals) else c)
  else cols ++ [(name, vals)]

/-- Embeds calculate_cumulative_returns (analysis_and_report.py lines 13-16).
The body assigns df[cumulative_return] = (1 + df[daily_return]).cumprod() - 1
with no grouping by ticker: one running product over the whole frame in row
order.  The assignment mutates the caller frame, and the function returns
that same frame: both components are the mutated frame. -/
def calculate_cumulative_returns (df : DF) : DF × DF :=
  let vals := cumProdFrom 1 (df.rows.map (fun r => r.daily_return))
  let mutated : DF := { df with extra := setCol df.extra "cumulative_return" vals }
  (mutated, mutated)

/-- Embeds calculate_annualized_volatility (analysis_and_report.py lines
18-21): groupby std times sqrt 252.  First component: argument state after
the call. -/
noncomputable def calculate_annualized_volatility (df : DF) :
    DF × List (String × Option ℝ) :=
  (df, (groupTickers df).map (fun t =>
    (t, (sstd (returnsOf df t)).map (fun s => s * Real.sqrt 252))))

/-- Embeds calculate_sharpe_ratio (analysis_and_report.py lines 23-28):
(groupby mean times 252, minus the risk-free rate) over (groupby std times
sqrt 252).  A NaN daily std (below two observations) gives a NaN quotient,
and a zero daily std gives a float infinity; both are none here.  First
component: argument state after the call. -/
noncomputable def calculate_sharpe (df : DF) (risk_free_rate : ℚ) :
    DF × List (String × Option ℝ) :=
  (df, (groupTickers df).map (fun t =>
    let xs := returnsOf df t
    (t, if 2 ≤ xs.length then
          if svar xs = 0 then none
          else some ((qmean xs * 252 - (risk_free_rate : ℝ)) /
            (Real.sqrt (svar xs) * Real.sqrt 252))
        else none)))

/-- The call the report makes, with the default risk-free rate 0.0. -/
noncomputable def calculate_sharpe_report (df : DF) : DF × List (String × Option ℝ) :=
  calculate_sharpe df 0

/-- Sorted distinct dates of the frame (the pivot index). -/
def pivotDates (df : DF) : List Nat := dedupSort (df.rows.map (fun r => r.date))

/-- Sorted distinct tickers of the frame (the pivot columns). -/
def pivotTickers (df : DF) : List String := dedupSort (df.rows.map (fun r => r.ticker))

/-- A pivot cell: the daily return of ticker t on date d, NaN when absent
(pivot raises on duplicate pairs; frames in context have at most one row
per pair). -/
def pivotCell (df : DF) (d : Nat) (t : String) : Option ℚ :=
  (df.rows.find? (fun r => r.date == d && r.ticker == t)).map (fun r => r.daily_return)

/-- One pivot column over the global date axis. -/
def pivotCol (df : DF) (t : String) : CloseCol :=
  (pivotDates df).map (fun d => pivotCell df d t)

/-- df.pivot(index = date, columns = ticker, values = daily_return). -/
def dfPivot (df : DF) : List (String × CloseCol) :=
  (pivotTickers df).map (fun t => (t, pivotCol df t))

/-- The defined cells of a column, in order. -/
def definedCells (c : CloseCol) : List ℚ := c.filterMap id

/-- Pairs of values on rows where both columns are defined: the
pairwise-complete observations pandas corr aligns for one ticker pair. -/
def pairedObs (ci cj : CloseCol) : List (ℚ × ℚ) :=
  (ci.zip cj).filterMap (fun ab => ab.1.bind (fun x => ab.2.map (fun y => (x, y))))

/-- Centered cross sum of a paired sample. -/
def sxy (ps : List (ℚ × ℚ)) : ℚ :=
  (ps.map (fun p =>
    (p.1 - qmean (ps.map Prod.fst)) * (p.2 - qmean (ps.map Prod.snd)))).sum

/-- Pearson correlation of a paired sample; NaN (none) on an empty sample or
when either marginal has zero squared deviation, as pandas corr computes it
(cov over the product of standard deviations, 0/0 giving NaN). -/
noncomputable def pearson (ps : List (ℚ × ℚ)) : Option ℝ :=
  if 1 ≤ ps.length ∧
      ¬centeredSq (ps.map Prod.fst) * centeredSq (ps.map Prod.snd) = 0 then
    some ((sxy ps : ℝ) / Real.sqrt ((centeredSq (ps.map Prod.fst) : ℝ) *
      (centeredSq (ps.map Prod.snd) : ℝ)))
  else none

/-- Embeds calculate_correlation (analysis_and_report.py lines 30-32):
df_pivot.corr(), pairwise-complete Pearson over the pivot columns.  First
component: argument state after the call. -/
noncomputable def calculate_correlation (pv : List (String × CloseCol)) :
    List (String × CloseCol) × List (String × List (String × Option ℝ)) :=
  (pv, pv.map (fun ci => (ci.1, pv.map (fun cj => (cj.1, pearson (pairedObs ci.2 cj.2))))))

/-- Entry of the correlation matrix at a row and column ticker. -/
noncomputable def corrEntry (pv : List (String × CloseCol)) (ti tj : String) :
    Option (Option ℝ) :=
  ((calculate_correlation pv).2.lookup ti).bind (fun row => row.lookup tj)

/-- Running product over a column with NaN gaps, as pandas cumprod with its
default skipna: a NaN cell stays NaN and does not advance the accumulator. -/
def cumProdSkipFrom (acc : ℚ) : CloseCol → CloseCol
  | [] => []
  | none :: rest => none :: cumProdSkipFrom acc rest
  | some x :: rest => some (acc * x) :: cumProdSkipFrom (acc * x) rest

/-- Embeds the cumulative series the report renders (analysis_and_report.py
line 116): df_cumulative = (1 + df_pivot).cumprod() - 1, per pivot column. -/
def mainCumulative (df : DF) : List (String × CloseCol) :=
  (dfPivot df).map (fun c =>
    (c.1, (cumProdSkipFrom 1 (c.2.map (Option.map (fun x => 1 + x)))).map
      (Option.map (fun x => x - 1))))

/-- One rolling-std column (window w, pandas defaults: min_periods equal to
the window, ddof = 1) scaled by sqrt 252, over a pivot column: the entry at
position i is defined only when the w cells ending at position i all
exist. -/
noncomputable def rollingVolCol (w : Nat) (col : CloseCol) : List (Option ℝ) :=
  (List.range col.length).map (fun i =>
    if w ≤ i + 1 then
      if ((col.drop (i + 1 - w)).take w).all (fun c => c.isSome) then
        (sstd (((col.drop (i + 1 - w)).take w).filterMap id)).map
          (fun s => s * Real.sqrt 252)
      else none
    else none)

/-- Embeds the rolling volatility the report renders (analysis_and_report.py
line 124): df_pivot.rolling(window).std() * sqrt(252); the report passes
window 30. -/
noncomputable def rollingVolTable (df : DF) (w : Nat) : List (String × List (Option ℝ)) :=
  (dfPivot df).map (fun c => (c.1, rollingVolCol w c.2))

/-- Modelled from the spec: rolling volatility over one ticker's own
date-ordered return sequence, as the claim words it (positions before
w - 1 undefined, then the sample std of the trailing w observations of that
ticker times sqrt 252).  Used only to compare the code against the claim. -/
noncomputable def rollingVolOwnSeq (w : Nat) (xs : List ℚ) : List (Option ℝ) :=
  (List.range xs.length).map (fun i =>
    if w ≤ i + 1 then
      (sstd ((xs.drop (i + 1 - w)).take w)).map (fun s => s * Real.sqrt 252)
    else none)

/-! General helper lemmas. -/

theorem lookup_map_self {α β : Type} [BEq α] [LawfulBEq α] {l : List α} {f : α → β}
    {t : α} (hnd : l.Nodup) (ht : t ∈ l) :
    (l.map (fun s => (s, f s))).lookup t = some (f t) := by
  induction l with
  | nil => cases ht
  | cons a l ih =>
      by_cases he : t = a
      · subst he
        simp [List.lookup]
      · have hmem : t ∈ l := by
          rcases List.mem_cons.mp ht with h | h
          · exact absurd h he
          · exact h
        have hb : (t == a) = false := by simp [he]
        simpa [List.lookup, hb] using ih (List.nodup_cons.mp hnd).2 hmem

theorem mem_dedupSort {α : Type} [DecidableEq α] [LinearOrder α] {l : List α} {a : α} :
    a ∈ dedupSort l ↔ a ∈ l := by
  unfold dedupSort
  rw [(List.perm_insertionSort _ _).mem_iff, List.mem_dedup]

theorem nodup_dedupSort {α : Type} [DecidableEq α] [LinearOrder α] (l : List α) :
    (dedupSort l).Nodup := by
  unfold dedupSort
  exact (List.perm_insertionSort _ _).nodup_iff.mpr (List.nodup_dedup l)

theorem length_filterMap_of_isSome {α β : Type} {l : List α} {f : α → Option β}
    (h : ∀ a ∈ l, (f a).isSome) : (l.filterMap f).length = l.length := by
  induction l with
  | nil => rfl
  | cons a l ih =>
      rcases Option.isSome_iff_exists.mp (h a (List.mem_cons_self a l)) with ⟨b, hb⟩
      simp [List.filterMap_cons, hb, ih (fun x hx => h x (List.mem_cons_of_mem _ hx))]

theorem map_filterMap_of_inv {α β γ : Type} {l : List α} {f : α → Option β} {g : β → γ}
    {gl : α → γ} (h : ∀ a ∈ l, ∃ b, f a = some b ∧ g b = gl a) :
    (l.filterMap f).map g = l.map gl := by
  induction l with
  | nil => rfl
  | cons a l ih =>
      rcases h a (List.mem_cons_self a l) with ⟨b, hb, hgb⟩
      simp [List.filterMap_cons, hb, hgb,
        ih (fun x hx => h x (List.mem_cons_of_mem _ hx))]

theorem flatMap_nil_fun {α β : Type} (l : List α) :
    l.flatMap (fun _ => ([] : List β)) = [] := by
  induction l with
  | nil => rfl
  | cons a l ih => simp [ih]

/-! Lemmas about the ETL transform. -/

theorem normalizeClose_eq_self {tickers : List String} {table : List (String × CloseCol)}
    (h : 2 ≤ tickers.length) : normalizeClose tickers table = table := by
  unfold normalizeClose
  rw [if_neg]
  omega

/-- The record block melt emits for one value_vars label. -/
def blockOf (rt : List (String × CloseCol)) (n : Nat) (v : String) : List RetRec :=
  (survIdx rt n).filterMap (fun i =>
    ((colOf rt v).getD i none).map (fun r => ⟨i, v, r⟩))

theorem transform_eq_blocks {tickers : List String} {table : List (String × CloseCol)}
    {out : List RetRec} (h2 : 2 ≤ tickers.length)
    (htr : transform_data tickers table = some out) :
    (∀ v ∈ valueVars tickers (returnsTable table),
      (returnsTable table).any (fun c => c.1 == v) = true) ∧
    out = (valueVars tickers (returnsTable table)).flatMap
      (blockOf (returnsTable table) (tableLen table)) := by
  rw [transform_data, normalizeClose_eq_self h2] at htr
  by_cases hg : (valueVars tickers (returnsTable table)).all
      (fun v => (returnsTable table).any (fun c => c.1 == v)) = true
  · refine ⟨List.all_eq_true.mp hg, ?_⟩
    rw [if_pos hg] at htr
    cases htr
    rfl
  · rw [if_neg hg] at htr
    cases htr

theorem colOf_mem_of_any {rt : List (String × CloseCol)} {v : String}
    (hv : rt.any (fun c => c.1 == v) = true) :
    ∃ c ∈ rt, c.1 = v ∧ colOf rt v = c.2 := by
  cases hf : rt.find? (fun c => c.1 == v) with
  | none =>
      rcases List.any_eq_true.mp hv with ⟨c, hc, hcv⟩
      exact absurd hcv (by simpa using List.find?_eq_none.mp hf c hc)
  | some c =>
      refine ⟨c, List.mem_of_find?_eq_some hf, ?_, ?_⟩
      · simpa using List.find?_some hf
      · rw [colOf, hf]

theorem block_cell_isSome {rt : List (String × CloseCol)} {n : Nat} {v : String}
    (hv : rt.any (fun c => c.1 == v) = true) :
    ∀ i ∈ survIdx rt n, ((colOf rt v).getD i none).isSome := by
  intro i hi
  have hrow : rowDefined rt i = true := (List.mem_filter.mp hi).2
  rcases colOf_mem_of_any hv with ⟨c, hc, _, hcol⟩
  rw [hcol]
  exact List.all_eq_true.mp hrow c hc

theorem block_length {rt : List (String × CloseCol)} {n : Nat} {v : String}
    (hv : rt.any (fun c => c.1 == v) = true) :
    (blockOf rt n v).length = (survIdx rt n).length := by
  refine length_filterMap_of_isSome (fun i hi => ?_)
  rcases Option.isSome_iff_exists.mp (@block_cell_isSome rt n v hv i hi) with ⟨q, hq⟩
  simp only [hq]
  rfl

theorem block_dates {rt : List (String × CloseCol)} {n : Nat} {v : String}
    (hv : rt.any (fun c => c.1 == v) = true) :
    (blockOf rt n v).map (fun r => r.date) = survIdx rt n := by
  have h : ((survIdx rt n).filterMap (fun i =>
      ((colOf rt v).getD i none).map (fun r => (⟨i, v, r⟩ : RetRec)))).map
        (fun r => r.date) = (survIdx rt n).map (fun i => i) :=
    map_filterMap_of_inv (fun i hi => by
      rcases Option.isSome_iff_exists.mp (@block_cell_isSome rt n v hv i hi) with ⟨q, hq⟩
      exact ⟨⟨i, v, q⟩, by simp only [hq]; rfl, rfl⟩)
  rw [blockOf, h, List.map_id']

theorem block_ticker {rt : List (String × CloseCol)} {n : Nat} {v : String} :
    ∀ r ∈ blockOf rt n v, r.ticker = v := by
  intro r hr
  rcases List.mem_filterMap.mp hr with ⟨i, _, hfi⟩
  rcases Option.map_eq_some'.mp hfi with ⟨q, _, hrq⟩
  rw [← hrq]

theorem filter_flatMap_not_mem {vv : List String} {F : String → List RetRec} {t : String}
    (htk : ∀ v, ∀ r ∈ F v, r.ticker = v) (hnot : t ∉ vv) :
    ((vv.flatMap F).filter (fun r => r.ticker == t)) = [] := by
  induction vv with
  | nil => rfl
  | cons v vv ih =>
      rw [List.flatMap_cons, List.filter_append]
      have h1 : (F v).filter (fun r => r.ticker == t) = [] := by
        refine List.filter_eq_nil_iff.mpr (fun r hr => ?_)
        have htv : r.ticker = v := htk v r hr
        simp only [htv, beq_iff_eq]
        intro he
        exact hnot (he ▸ List.mem_cons_self v vv)
      rw [h1, List.nil_append]
      exact ih (fun he => hnot (List.mem_cons_of_mem _ he))

theorem filter_flatMap_mem {vv : List String} {F : String → List RetRec} {t : String}
    (htk : ∀ v, ∀ r ∈ F v, r.ticker = v) (hnd : vv.Nodup) (ht : t ∈ vv) :
    ((vv.flatMap F).filter (fun r => r.ticker == t)) = F t := by
  induction vv with
  | nil => cases ht
  | cons v vv ih =>
      rw [List.flatMap_cons, List.filter_append]
      by_cases he : v = t
      · subst he
        have h1 : (F v).filter (fun r => r.ticker == v) = F v := by
          refine List.filter_eq_self.mpr (fun r hr => by simp [htk v r hr])
        have h2 : ((vv.flatMap F).filter (fun r => r.ticker == v)) = [] :=
          filter_flatMap_not_mem htk (List.nodup_cons.mp hnd).1
        rw [h1, h2, List.append_nil]
      · have h1 : (F v).filter (fun r => r.ticker == t) = [] := by
          refine List.filter_eq_nil_iff.mpr (fun r hr => by simp [htk v r hr, he])
        have hmem : t ∈ vv := by
          rcases List.mem_cons.mp ht with h | h
          · exact absurd h.symm he
          · exact h
        rw [h1, List.nil_append]
        exact ih (List.nodup_cons.mp hnd).2 hmem

theorem length_flatMap_const {vv : List String} {F : String → List RetRec} {k : Nat}
    (h : ∀ v ∈ vv, (F v).length = k) : (vv.flatMap F).length = vv.length * k := by
  induction vv with
  | nil => simp
  | cons v vv ih =>
      rw [List.flatMap_cons, List.length_append, h v (List.mem_cons_self v vv),
        ih (fun x hx => h x (List.mem_cons_of_mem _ hx)), List.length_cons,
        Nat.succ_mul, Nat.add_comm]

/-! Lemmas about fully covered price columns. -/

theorem all_some_eq_map {col : CloseCol} (h : ∀ x ∈ col, x.isSome) :
    col = (definedCells col).map some := by
  induction col with
  | nil => rfl
  | cons a l ih =>
      rcases Option.isSome_iff_exists.mp (h a (List.mem_cons_self a l)) with ⟨q, hq⟩
      subst hq
      have hrest := ih (fun x hx => h x (List.mem_cons_of_mem _ hx))
      have hdc : definedCells (some q :: l) = q :: definedCells l := rfl
      rw [hdc, List.map_cons, ← hrest]

theorem pctChange_map_some (q : ℚ) (rest : List ℚ) :
    pctChange ((q :: rest).map some) =
      none :: ((q :: rest).zip rest).map (fun pq => some (pq.2 / pq.1 - 1)) := by
  simp only [List.map_cons, pctChange]
  congr 1
  rw [show (some q :: rest.map some) = (q :: rest).map some from rfl, List.zip_map,
    List.map_map]
  refine List.map_congr_left (fun pq _ => ?_)
  cases pq
  rfl

theorem getD_isSome_of_mem {β : Type} {l : List (Option β)} {j : Nat}
    (hall : ∀ x ∈ l, x.isSome) (hj : j < l.length) : (l.getD j none).isSome := by
  rw [List.getD_eq_getElem l none hj]
  exact hall _ (List.getElem_mem hj)

theorem pctChange_getD_isSome {col : CloseCol} {i : Nat}
    (hall : ∀ x ∈ col, x.isSome) (h1 : 1 ≤ i) (hi : i < col.length) :
    ((pctChange col).getD i none).isSome := by
  have hcol := all_some_eq_map hall
  cases hqs : definedCells col with
  | nil => rw [hqs] at hcol; rw [hcol] at hi; simp at hi
  | cons q rest =>
      rw [hqs] at hcol
      rw [hcol, pctChange_map_some]
      cases i with
      | zero => omega
      | succ j =>
          rw [List.getD_cons_succ]
          refine getD_isSome_of_mem (fun x hx => ?_) ?_
          · rcases List.mem_map.mp hx with ⟨pq, _, hpq⟩
            rw [← hpq]
            rfl
          · have hlen : col.length = rest.length + 1 := by
              rw [hcol, List.length_map, List.length_cons]
            rw [List.length_map, List.length_zip]
            simp only [List.length_cons]
            omega

theorem pctChange_getD_zero {col : CloseCol} (h : col ≠ []) :
    (pctChange col).getD 0 none = none := by
  cases col with
  | nil => exact absurd rfl h
  | cons a l => rfl

theorem survIdx_full {table : List (String × CloseCol)} {n : Nat}
    (hne : table ≠ []) (hlen : ∀ c ∈ table, c.2.length = n)
    (hfull : ∀ c ∈ table, ∀ x ∈ c.2, x.isSome) :
    survIdx (returnsTable table) n = (List.range n).filter (fun i => decide (1 ≤ i)) := by
  unfold survIdx
  refine List.filter_congr (fun i hi => ?_)
  have hin : i < n := List.mem_range.mp hi
  by_cases h1 : 1 ≤ i
  · have : rowDefined (returnsTable table) i = true := by
      refine List.all_eq_true.mpr (fun c hc => ?_)
      rcases List.mem_map.mp hc with ⟨c0, hc0, hcc⟩
      rw [← hcc]
      exact pctChange_getD_isSome (hfull c0 hc0) h1 (by rw [hlen c0 hc0]; exact hin)
    rw [this]
    simp [h1]
  · have hiz : i = 0 := by omega
    subst hiz
    cases table with
    | nil => exact absurd rfl hne
    | cons c0 tl =>
        have hc0ne : c0.2 ≠ [] := by
          intro hnil
          have := hlen c0 (List.mem_cons_self c0 tl)
          rw [hnil] at this
          simp at this
          omega
        have : rowDefined (returnsTable (c0 :: tl)) 0 = false := by
          unfold rowDefined returnsTable
          rw [List.map_cons, List.all_cons, pctChange_getD_zero hc0ne]
          rfl
        rw [this]
        simp

theorem length_filter_one_le (n : Nat) :
    ((List.range n).filter (fun i => decide (1 ≤ i))).length = n - 1 := by
  induction n with
  | zero => rfl
  | succ m ih =>
      rw [List.range_succ, List.filter_append, List.length_append, ih]
      cases m with
      | zero => rfl
      | succ k => simp

/-! Lemmas about degenerate statistics. -/

theorem qmean_replicate {n : Nat} (r : ℚ) (hn : n ≠ 0) :
    qmean (List.replicate n r) = r := by
  unfold qmean
  rw [List.sum_replicate, List.length_replicate, nsmul_eq_mul]
  exact mul_div_cancel_left₀ r (Nat.cast_ne_zero.mpr hn)

theorem svar_replicate (n : Nat) (r : ℚ) : svar (List.replicate n r) = 0 := by
  cases n with
  | zero => simp [svar, centeredSq]
  | succ m =>
      unfold svar centeredSq
      rw [qmean_replicate r (Nat.succ_ne_zero m), List.map_replicate]
      simp

theorem returnsOf_sub_ticker {df : DF} {t : String} :
    ∀ x ∈ returnsOf df t, ∃ r ∈ df.rows, r.ticker = t ∧ r.daily_return = x := by
  intro x hx
  rcases List.mem_filterMap.mp hx with ⟨r, hr, hfr⟩
  by_cases hb : r.ticker = t
  · refine ⟨r, hr, hb, ?_⟩
    rw [if_pos (by simp [hb])] at hfr
    exact Option.some_injective _ hfr
  · rw [if_neg (by simp [hb])] at hfr
    cases hfr

theorem mem_groupTickers_of_ne_nil {df : DF} {t : String}
    (h : returnsOf df t ≠ []) : t ∈ groupTickers df := by
  rw [groupTickers, mem_dedupSort]
  rcases List.exists_mem_of_ne_nil _ h with ⟨x, hx⟩
  rcases returnsOf_sub_ticker x hx with ⟨r, hr, hrt, _⟩
  exact List.mem_map.mpr ⟨r, hr, hrt⟩

theorem group_map_lookup {β : Type} (df : DF) (f : List ℚ → β) {t : String}
    (ht : t ∈ groupTickers df) :
    ((groupTickers df).map (fun s => (s, f (returnsOf df s)))).lookup t =
      some (f (returnsOf df t)) :=
  lookup_map_self (nodup_dedupSort _) ht

/-! Lemmas about Pearson correlation and the pivot. -/

theorem centeredSq_nonneg (l : List ℚ) : 0 ≤ centeredSq l := by
  refine List.sum_nonneg (fun x hx => ?_)
  rcases List.mem_map.mp hx with ⟨y, _, hy⟩
  rw [← hy]
  exact sq_nonneg _

theorem pairedObs_self (c : CloseCol) :
    pairedObs c c = (definedCells c).map (fun x => (x, x)) := by
  induction c with
  | nil => rfl
  | cons a l ih =>
      cases a with
      | none => exact ih
      | some q =>
          show (q, q) :: pairedObs l l = (q, q) :: (definedCells l).map (fun x => (x, x))
          exact congrArg _ ih

theorem pearson_diag {l : List ℚ} (hS : centeredSq l ≠ 0) :
    pearson (l.map (fun x => (x, x))) = some 1 := by
  have hfst : (l.map (fun x => (x, x))).map Prod.fst = l := by
    rw [List.map_map]
    exact List.map_id _
  have hsnd : (l.map (fun x => (x, x))).map Prod.snd = l := by
    rw [List.map_map]
    exact List.map_id _
  have hsxy : sxy (l.map (fun x => (x, x))) = centeredSq l := by
    unfold sxy centeredSq
    rw [hfst, hsnd, List.map_map]
    refine congrArg List.sum (List.map_congr_left (fun x _ => ?_))
    exact (pow_two _).symm
  have hne : l ≠ [] := by
    intro h
    rw [h] at hS
    exact hS rfl
  have hpos : (0 : ℝ) < (centeredSq l : ℝ) := by
    have := lt_of_le_of_ne (centeredSq_nonneg l) (Ne.symm hS)
    exact_mod_cast this
  unfold pearson
  rw [if_pos]
  · rw [hfst, hsnd, hsxy, Real.sqrt_mul_self (le_of_lt hpos)]
    rw [div_self (ne_of_gt hpos)]
  · refine ⟨by simpa using List.length_pos.mpr hne, ?_⟩
    rw [hfst, hsnd]
    exact mul_ne_zero hS hS

theorem pearson_swap (ps : List (ℚ × ℚ)) : pearson (ps.map Prod.swap) = pearson ps := by
  have hfst : (ps.map Prod.swap).map Prod.fst = ps.map Prod.snd := by
    rw [List.map_map]
    rfl
  have hsnd : (ps.map Prod.swap).map Prod.snd = ps.map Prod.fst := by
    rw [List.map_map]
    rfl
  have hsxy : sxy (ps.map Prod.swap) = sxy ps := by
    unfold sxy
    rw [hfst, hsnd, List.map_map]
    exact congrArg List.sum (List.map_congr_left (fun p _ => mul_comm _ _))
  unfold pearson
  rw [hfst, hsnd, hsxy, List.length_map,
    mul_comm (centeredSq (ps.map Prod.snd)) (centeredSq (ps.map Prod.fst)),
    mul_comm ((centeredSq (ps.map Prod.snd) : ℚ) : ℝ) ((centeredSq (ps.map Prod.fst) : ℚ) : ℝ)]

theorem pairedObs_swap (ci cj : CloseCol) :
    pairedObs cj ci = (pairedObs ci cj).map Prod.swap := by
  unfold pairedObs
  rw [← List.zip_swap, List.filterMap_map, List.map_filterMap]
  refine List.filterMap_congr (fun ab _ => ?_)
  rcases ab with ⟨a, b⟩
  cases a <;> cases b <;> rfl

theorem pairedObs_pivotCol (df : DF) (ti tj : String) :
    pairedObs (pivotCol df ti) (pivotCol df tj) =
      (pivotDates df).filterMap (fun d =>
        (pivotCell df d ti).bind (fun x => (pivotCell df d tj).map (fun y => (x, y)))) := by
  unfold pairedObs pivotCol
  rw [List.zip_map', List.filterMap_map]
  rfl

theorem corr_matrix_eq (df : DF) :
    (calculate_correlation (dfPivot df)).2 =
      (pivotTickers df).map (fun ti => (ti, (pivotTickers df).map (fun tj =>
        (tj, pearson (pairedObs (pivotCol df ti) (pivotCol df tj)))))) := by
  simp only [calculate_correlation, dfPivot, List.map_map, Function.comp_def]

theorem corrEntry_pivot (df : DF) {ti tj : String}
    (hi : ti ∈ pivotTickers df) (hj : tj ∈ pivotTickers df) :
    corrEntry (dfPivot df) ti tj =
      some (pearson (pairedObs (pivotCol df ti) (pivotCol df tj))) := by
  have hnd : (pivotTickers df).Nodup := nodup_dedupSort _
  unfold corrEntry
  rw [corr_matrix_eq, lookup_map_self hnd hi, Option.some_bind]
  exact lookup_map_self hnd hj

/-! Lemmas about rolling volatility. -/

theorem rollingVolCol_map_some (w : Nat) (xs : List ℚ) :
    rollingVolCol w (xs.map some) = rollingVolOwnSeq w xs := by
  unfold rollingVolCol rollingVolOwnSeq
  rw [List.length_map]
  refine List.map_congr_left (fun i _ => ?_)
  by_cases hw : w ≤ i + 1
  · rw [if_pos hw, if_pos hw]
    have hall : (((xs.map some).drop (i + 1 - w)).take w).all
        (fun c => c.isSome) = true := by
      refine List.all_eq_true.mpr (fun x hx => ?_)
      have hx2 : x ∈ xs.map some :=
        List.mem_of_mem_drop (List.mem_of_mem_take hx)
      rcases List.mem_map.mp hx2 with ⟨q, _, hq⟩
      rw [← hq]
      rfl
    have hwin : ((xs.map some).drop (i + 1 - w)).take w =
        ((xs.drop (i + 1 - w)).take w).map some := by
      simp
    rw [if_pos hall, hwin, List.filterMap_map,
      show (id ∘ some : ℚ → Option ℚ) = some from rfl, List.filterMap_some]
  · rw [if_neg hw, if_neg hw]

theorem rollingVolCol_head_undefined {w : Nat} {col : CloseCol} {i : Nat}
    (hi : i < col.length) (hlt : i + 1 < w) :
    (rollingVolCol w col)[i]? = some none := by
  unfold rollingVolCol
  rw [List.getElem?_map, List.getElem?_range hi]
  simp [Nat.not_le.mpr hlt]

theorem rollingVolTable_lookup (df : DF) (w : Nat) {t : String}
    (ht : t ∈ pivotTickers df) :
    (rollingVolTable df w).lookup t = some (rollingVolCol w (pivotCol df t)) := by
  unfold rollingVolTable dfPivot
  rw [List.map_map]
  have h : ((pivotTickers df).map
      (fun s => (s, rollingVolCol w (pivotCol df s)))).lookup t =
      some (rollingVolCol w (pivotCol df t)) :=
    lookup_map_self (nodup_dedupSort _) ht
  exact h

/-! Concrete example inputs used by counterexamples and witnesses. -/

/-- Close-price table where ticker A has three prices and ticker B is listed
one trading day later (a leading gap only). -/
def tblA : List (String × CloseCol) :=
  [("A", [some 100, some 110, some 121]), ("B", [none, some 100, some 110])]

/-- A two-ticker long frame whose second ticker has only one date. -/
def exDF : DF := ⟨[⟨0, "A", 1/10⟩, ⟨1, "A", 1/10⟩, ⟨0, "B", 1/10⟩], []⟩

/-- A two-ticker long frame where ticker B misses the middle date. -/
def exDF5 : DF :=
  ⟨[⟨0, "A", 0⟩, ⟨1, "A", 1/10⟩, ⟨2, "A", 1/5⟩, ⟨3, "A", 3/10⟩, ⟨4, "A", 2/5⟩,
    ⟨0, "B", 0⟩, ⟨1, "B", 1/10⟩, ⟨3, "B", 1/5⟩, ⟨4, "B", 3/10⟩], []⟩

/-- A long frame whose ticker A has constant returns (zero variance). -/
def exDFconst : DF :=
  ⟨[⟨0, "A", 1/10⟩, ⟨1, "A", 1/10⟩, ⟨0, "B", 0⟩, ⟨1, "B", 1/5⟩], []⟩

/-- A small nondegenerate two-ticker long frame. -/
def exDF2 : DF :=
  ⟨[⟨0, "A", 1/10⟩, ⟨1, "A", 1/5⟩, ⟨0, "B", 1/5⟩, ⟨1, "B", 2/5⟩], []⟩

theorem strAB : ("A" : String) ≤ "B" := by
  rw [String.le_iff_toList_le]
  decide

theorem pivotTickers_exDF : pivotTickers exDF = ["A", "B"] := by
  simp [pivotTickers, exDF, dedupSort, List.insertionSort, List.orderedInsert]
  decide

theorem pivotTickers_exDF5 : pivotTickers exDF5 = ["A", "B"] := by
  simp [pivotTickers, exDF5, dedupSort, List.insertionSort, List.orderedInsert]
  decide

theorem pivotTickers_exDFconst : pivotTickers exDFconst = ["A", "B"] := by
  simp [pivotTickers, exDFconst, dedupSort, List.insertionSort, List.orderedInsert]
  decide

theorem pivotTickers_exDF2 : pivotTickers exDF2 = ["A", "B"] := by
  simp [pivotTickers, exDF2, dedupSort, List.insertionSort, List.orderedInsert]
  decide

/-- C1, evaluation at the failing input: calculate_cumulative_returns takes
the running product over the whole long frame without grouping by ticker, so
the entry stored for ticker B's only row is (1.1)(1.1)(1.1) - 1 = 0.331 and
includes ticker A's returns, while the product over B's own date-ordered
return sequence is 0.1.  The pivot-based series the report actually renders
(mainCumulative) keeps the products per ticker: B's series is [0.1, NaN]. -/
theorem C1_cumprod_mixes_tickers :
    (calculate_cumulative_returns exDF).2.extra =
      [("cumulative_return", [1/10, 21/100, 331/1000])] ∧
    cumProdFrom 1 (returnsOf exDF "B") = [1/10] ∧
    (331 / 1000 : ℚ) ≠ 1 / 10 ∧
    mainCumulative exDF =
      [("A", [some (1/10), some (21/100)]), ("B", [some (1/10), none])] := by
  refine ⟨?_, ?_, by norm_num, ?_⟩
  · norm_num [calculate_cumulative_returns, exDF, setCol, cumProdFrom, returnsOf]
  · norm_num [cumProdFrom, returnsOf, exDF]
  · have h1 : dfPivot exDF = [("A", pivotCol exDF "A"), ("B", pivotCol exDF "B")] := by
      rw [dfPivot, pivotTickers_exDF]
      rfl
    have hA : pivotCol exDF "A" = [some (1/10), some (1/10)] := rfl
    have hB : pivotCol exDF "B" = [some (1/10), none] := rfl
    rw [mainCumulative, h1, hA, hB]
    norm_num [cumProdSkipFrom]

/-- C2 counterexample: in tblA, ticker A has three defined prices, so the
claim predicts 3 - 1 = 2 records for A; the row-wise dropna also removes the
date where ticker B's return is undefined, and A gets a single record. -/
theorem C2_counterexample :
    ¬(transform_data ["A", "B"] tblA).map (fun out => countTicker out "A") =
      some ((definedCells (colOf tblA "A")).length - 1) := by
  decide

/-- C3 counterexample: calculate_cumulative_returns changes its input frame
(a cumulative_return column is assigned into it), so this analytics
operation is not pure. -/
theorem C3_counterexample : (calculate_cumulative_returns exDF).1 ≠ exDF := by
  simp [calculate_cumulative_returns, setCol, exDF]

/-- C4 counterexample: with three requested tickers of which one has no
column, melt raises KeyError and the transform returns None instead of
producing the other two tickers' records. -/
theorem C4_counterexample : transform_data ["A", "B", "C"] tblA = none := by
  decide

/-- C5 counterexample: ticker B of exDF5 has four returns of its own, so the
claim predicts defined rolling values (window 3) at its own positions 2 and
3; but the code rolls over the global five-date pivot axis where B has a NaN
gap, and every window of B's column hits the gap: the emitted column has no
defined entry at all. -/
theorem C5_counterexample :
    ((rollingVolTable exDF5 3).lookup "B").map
      (fun col => col.any (fun x => x.isSome)) = some false ∧
    ((rollingVolOwnSeq 3 (returnsOf exDF5 "B")).getD 2 none).isSome = true := by
  constructor
  · have ht : "B" ∈ pivotTickers exDF5 := by
      rw [pivotTickers_exDF5]
      decide
    rw [rollingVolTable_lookup exDF5 3 ht]
    rfl
  · rfl

/-- C6 counterexample: ticker A of exDFconst has constant returns, so its
diagonal correlation entry is NaN (0/0), not 1.0. -/
theorem C6_counterexample :
    corrEntry (dfPivot exDFconst) "A" "A" = some none ∧
    some (none : Option ℝ) ≠ some (some (1 : ℝ)) := by
  constructor
  · have hA : "A" ∈ pivotTickers exDFconst := by
      rw [pivotTickers_exDFconst]
      decide
    rw [corrEntry_pivot exDFconst hA hA, pairedObs_self]
    have hdc : definedCells (pivotCol exDFconst "A") = [1/10, 1/10] := rfl
    rw [hdc, pearson, if_neg]
    norm_num [centeredSq, qmean]
  · simp

theorem valueVars_nodup {tickers : List String} {rt : List (String × CloseCol)}
    (hnd : tickers.Nodup) : (valueVars tickers rt).Nodup := by
  unfold valueVars
  by_cases h1 : rt.length = 1
  · rw [if_pos h1]
    cases rt with
    | nil => simp at h1
    | cons c tl =>
        cases tl with
        | nil => simp
        | cons d tl2 => simp at h1
  · rw [if_neg h1]
    exact hnd

/-- C9: an empty price table (ticker columns present, zero rows) transforms
to the empty record sequence; no error is signalled. -/
theorem C9_empty_table {tickers : List String} {table : List (String × CloseCol)}
    (h2 : 2 ≤ tickers.length)
    (hcols : ∀ c ∈ table, c.2 = [])
    (hsub : ∀ t ∈ tickers, ∃ c ∈ table, c.1 = t) :
    transform_data tickers table = some [] := by
  rw [transform_data, normalizeClose_eq_self h2]
  have hn : tableLen table = 0 := by
    cases table with
    | nil => rfl
    | cons c tl =>
        have := hcols c (List.mem_cons_self c tl)
        simp [tableLen, this]
  have hguard : (valueVars tickers (returnsTable table)).all
      (fun v => (returnsTable table).any (fun c => c.1 == v)) = true := by
    refine List.all_eq_true.mpr (fun v hv => ?_)
    unfold valueVars at hv
    by_cases h1 : (returnsTable table).length = 1
    · rw [if_pos h1] at hv
      rcases List.mem_map.mp hv with ⟨c, hc, hcv⟩
      exact List.any_eq_true.mpr ⟨c, hc, by simp [hcv]⟩
    · rw [if_neg h1] at hv
      rcases hsub v hv with ⟨c, hc, hcv⟩
      refine List.any_eq_true.mpr ⟨(c.1, pctChange c.2), List.mem_map.mpr ⟨c, hc, rfl⟩,
        by simp [hcv]⟩
  rw [if_pos hguard]
  have hsurv : survIdx (returnsTable table) (tableLen table) = [] := by
    rw [hn]
    rfl
  simp only [hsurv, List.filterMap_nil, flatMap_nil_fun]

/-- C9 witness at a concrete empty two-column table. -/
theorem C9_empty_witness :
    transform_data ["NVDA", "QQQ"] [("NVDA", []), ("QQQ", [])] = some [] :=
  C9_empty_table (by decide) (by decide) (by decide)

/-- C10: when the transform succeeds on a multi-ticker request, the output
is rectangular: every emitted label carries records for exactly the
surviving row indices, a row survives iff every return column is defined on
it, all emitted labels get equal record counts, and the total length is the
number of emitted labels times the number of surviving rows. -/
theorem C10_rectangular {tickers : List String} {table : List (String × CloseCol)}
    {out : List RetRec}
    (hnd : tickers.Nodup) (h2 : 2 ≤ tickers.length)
    (htr : transform_data tickers table = some out) :
    (∀ t ∈ valueVars tickers (returnsTable table),
        datesOfTicker out t = survIdx (returnsTable table) (tableLen table) ∧
        countTicker out t = (survIdx (returnsTable table) (tableLen table)).length) ∧
    out.length = (valueVars tickers (returnsTable table)).length *
        (survIdx (returnsTable table) (tableLen table)).length ∧
    (∀ i, i ∈ survIdx (returnsTable table) (tableLen table) ↔
        (i < tableLen table ∧
          ∀ c ∈ returnsTable table, (c.2.getD i none).isSome = true)) := by
  obtain ⟨hcols, hout⟩ := transform_eq_blocks h2 htr
  have hvvnd : (valueVars tickers (returnsTable table)).Nodup := valueVars_nodup hnd
  subst hout
  refine ⟨fun t ht => ⟨?_, ?_⟩, ?_, fun i => ?_⟩
  · rw [datesOfTicker, filter_flatMap_mem (fun v => block_ticker) hvvnd ht]
    exact block_dates (hcols t ht)
  · rw [countTicker, filter_flatMap_mem (fun v => block_ticker) hvvnd ht]
    exact block_length (hcols t ht)
  · exact length_flatMap_const (fun v hv => block_length (hcols v hv))
  · simp [survIdx, rowDefined, List.mem_filter, List.mem_range, List.all_eq_true]

/-- The concrete output of the transform on tblA. -/
def exOut : List RetRec := (transform_data ["A", "B"] tblA).getD []

/-- C10 witness at tblA. -/
theorem C10_rectangular_witness :
    transform_data ["A", "B"] tblA = some exOut ∧
    exOut.length = (valueVars ["A", "B"] (returnsTable tblA)).length *
      (survIdx (returnsTable tblA) (tableLen tblA)).length :=
  ⟨rfl, (@C10_rectangular ["A", "B"] tblA exOut (by decide) (by decide) (by rfl)).2.1⟩

/-- C2 amended: the number of records an emitted ticker gets equals the
number of rows on which EVERY return column is defined (the row-wise dropna
count), not that ticker's own defined-price count minus one; the two agree
when every column has a defined price on every date, in which case each
ticker gets (number of dates) - 1 records. -/
theorem C2_per_ticker_count_amended {tickers : List String}
    {table : List (String × CloseCol)} {out : List RetRec} {t : String}
    (hnd : tickers.Nodup) (h2 : 2 ≤ tickers.length)
    (htr : transform_data tickers table = some out)
    (ht : t ∈ valueVars tickers (returnsTable table)) :
    countTicker out t = (survIdx (returnsTable table) (tableLen table)).length ∧
    (table ≠ [] → (∀ c ∈ table, c.2.length = tableLen table) →
      (∀ c ∈ table, ∀ x ∈ c.2, x.isSome) →
      countTicker out t = tableLen table - 1) := by
  obtain ⟨hcols, hout⟩ := transform_eq_blocks h2 htr
  have hvvnd : (valueVars tickers (returnsTable table)).Nodup := valueVars_nodup hnd
  subst hout
  have hcount : countTicker
      ((valueVars tickers (returnsTable table)).flatMap
        (blockOf (returnsTable table) (tableLen table))) t =
      (survIdx (returnsTable table) (tableLen table)).length := by
    rw [countTicker, filter_flatMap_mem (fun v => block_ticker) hvvnd ht]
    exact block_length (hcols t ht)
  refine ⟨hcount, fun hne hlen hfull => ?_⟩
  rw [hcount, survIdx_full hne hlen hfull, length_filter_one_le]

/-- A fully covered two-column price table. -/
def tblFull : List (String × CloseCol) :=
  [("A", [some 100, some 110, some 121]), ("B", [some 50, some 55, some 66])]

/-- The concrete output of the transform on tblFull. -/
def exOutFull : List RetRec := (transform_data ["A", "B"] tblFull).getD []

/-- C2 amended witness at tblFull: every ticker gets 3 - 1 = 2 records. -/
theorem C2_amended_witness :
    transform_data ["A", "B"] tblFull = some exOutFull ∧
    countTicker exOutFull "A" = tableLen tblFull - 1 :=
  ⟨rfl, (@C2_per_ticker_count_amended ["A", "B"] tblFull exOutFull "A"
    (by decide) (by decide) (by rfl) (by decide)).2
    (by decide) (by decide) (by decide)⟩

/-- C4 amended: an absent requested ticker is only silent when the
single-column guard applies: with exactly one return column, melt uses that
column label, the transform succeeds, and every other label (absent tickers
included) contributes zero records; with two or more columns and an absent
requested ticker, melt raises KeyError, the handler returns None, and no
ticker gets any records. -/
theorem C4_partial_coverage_amended
    {tickers : List String} {c : String} {col : CloseCol}
    (h2 : 2 ≤ tickers.length)
    {tickers2 : List String} {table2 : List (String × CloseCol)} {t0 : String}
    (h2b : 2 ≤ tickers2.length) (h2t : 2 ≤ table2.length)
    (ht0 : t0 ∈ tickers2) (habs : ∀ d ∈ table2, d.1 ≠ t0) :
    (∃ out, transform_data tickers [(c, col)] = some out ∧
      ∀ t, t ≠ c → countTicker out t = 0) ∧
    transform_data tickers2 table2 = none := by
  constructor
  · refine ⟨blockOf (returnsTable [(c, col)]) (tableLen [(c, col)]) c, ?_, ?_⟩
    · rw [transform_data, normalizeClose_eq_self h2]
      have hvv : valueVars tickers (returnsTable [(c, col)]) = [c] := by
        simp [valueVars, returnsTable]
      rw [hvv]
      have hg : (([c] : List String).all
          (fun v => (returnsTable [(c, col)]).any (fun d => d.1 == v))) = true := by
        simp [returnsTable]
      rw [if_pos hg]
      simp [blockOf]
    · intro t htne
      have hfil : (blockOf (returnsTable [(c, col)]) (tableLen [(c, col)]) c).filter
          (fun r => r.ticker == t) = [] := by
        refine List.filter_eq_nil_iff.mpr (fun r hr => ?_)
        have hrc := block_ticker r hr
        simp only [hrc, beq_iff_eq]
        intro he
        exact htne he.symm
      rw [countTicker, hfil]
      rfl
  · rw [transform_data, normalizeClose_eq_self h2b]
    have hvv : valueVars tickers2 (returnsTable table2) = tickers2 := by
      unfold valueVars returnsTable
      rw [if_neg]
      rw [List.length_map]
      omega
    rw [hvv, if_neg]
    intro hall
    have hta := List.all_eq_true.mp hall t0 ht0
    rcases List.any_eq_true.mp hta with ⟨d, hd, hdt⟩
    rcases List.mem_map.mp hd with ⟨d0, hd0, hdd⟩
    apply habs d0 hd0
    have hd1 : d.1 = t0 := by simpa using hdt
    rw [← hdd] at hd1
    exact hd1

/-- C4 amended witness: one present column out of two requested tickers
succeeds with records only for the present one; with two columns and a
third absent requested ticker the transform returns None. -/
theorem C4_amended_witness :
    (∃ out, transform_data ["A", "B"] [("A", [some 100, some 110])] = some out ∧
      ∀ t, t ≠ "A" → countTicker out t = 0) ∧
    transform_data ["A", "B", "C"] tblA = none :=
  @C4_partial_coverage_amended ["A", "B"] "A" [some 100, some 110] (by decide)
    ["A", "B", "C"] tblA "C" (by decide) (by decide) (by decide) (by decide)

/-- C3 amended: descriptive statistics, annualized volatility, the Sharpe
computation and the correlation matrix leave their argument unchanged (and,
being functions, are deterministic); calculate_cumulative_returns is the
exception: it assigns a cumulative_return column into its input frame, so
whenever that column is not already present the input frame is changed. -/
theorem C3_purity_amended (df : DF) (rf : ℚ) (pv : List (String × CloseCol))
    (hnc : df.extra.any (fun c => c.1 == "cumulative_return") = false) :
    (calculate_statistics df).1 = df ∧
    (calculate_annualized_volatility df).1 = df ∧
    (calculate_sharpe df rf).1 = df ∧
    (calculate_correlation pv).1 = pv ∧
    (calculate_cumulative_returns df).1 ≠ df := by
  refine ⟨rfl, rfl, rfl, rfl, fun h => ?_⟩
  have hx := congrArg DF.extra h
  rw [show (calculate_cumulative_returns df).1.extra =
      setCol df.extra "cumulative_return"
        (cumProdFrom 1 (df.rows.map (fun r => r.daily_return))) from rfl] at hx
  rw [setCol, if_neg (by simp [hnc])] at hx
  have hlen := congrArg List.length hx
  simp at hlen

/-- C3 amended witness at exDF with the default risk-free rate. -/
theorem C3_amended_witness :
    (exDF.extra.any (fun c => c.1 == "cumulative_return") = false) ∧
    (calculate_statistics exDF).1 = exDF ∧
    (calculate_cumulative_returns exDF).1 ≠ exDF :=
  ⟨rfl, (C3_purity_amended exDF 0 [] rfl).1, (C3_purity_amended exDF 0 [] rfl).2.2.2.2⟩

/-- C5 amended: rolling volatility runs per pivot column over the GLOBAL
date axis: every position with fewer than window rows before it is
undefined, and a window is undefined whenever any pivot cell in it is a gap;
when a ticker has a return on every pivot date, its emitted column coincides
with the rolling volatility over the ticker's own date-ordered return
sequence. -/
theorem C5_rolling_amended (df : DF) (w : Nat) {t : String} {xs : List ℚ}
    (ht : t ∈ pivotTickers df) (hfull : pivotCol df t = xs.map some) :
    (rollingVolTable df w).lookup t = some (rollingVolOwnSeq w xs) ∧
    (∀ col : CloseCol, ∀ i, i < col.length → i + 1 < w →
      (rollingVolCol w col)[i]? = some none) := by
  refine ⟨?_, fun col i hi hlt => rollingVolCol_head_undefined hi hlt⟩
  rw [rollingVolTable_lookup df w ht, hfull, rollingVolCol_map_some]

/-- C5 amended witness: ticker A of exDF5 covers all five pivot dates, so its
emitted column is the rolling volatility of its own return sequence. -/
theorem C5_amended_witness :
    ("A" ∈ pivotTickers exDF5) ∧
    (rollingVolTable exDF5 3).lookup "A" =
      some (rollingVolOwnSeq 3 [0, 1/10, 1/5, 3/10, 2/5]) :=
  ⟨by rw [pivotTickers_exDF5]; decide,
   (@C5_rolling_amended exDF5 3 "A" [0, 1/10, 1/5, 3/10, 2/5]
     (by rw [pivotTickers_exDF5]; decide) rfl).1⟩

/-- C6 amended: a correlation entry is Pearson over exactly the pivot rows
where both tickers have a defined return, the matrix is symmetric, and a
diagonal entry equals 1.0 whenever the ticker's defined returns have nonzero
squared deviation; degenerate (constant or single-observation) tickers give
an undefined NaN diagonal entry instead. -/
theorem C6_correlation_amended (df : DF) {ti tj : String}
    (hi : ti ∈ pivotTickers df) (hj : tj ∈ pivotTickers df)
    (hvar : centeredSq (definedCells (pivotCol df ti)) ≠ 0) :
    corrEntry (dfPivot df) ti tj =
      some (pearson ((pivotDates df).filterMap (fun d =>
        (pivotCell df d ti).bind (fun x => (pivotCell df d tj).map (fun y => (x, y)))))) ∧
    corrEntry (dfPivot df) ti tj = corrEntry (dfPivot df) tj ti ∧
    corrEntry (dfPivot df) ti ti = some (some 1) := by
  refine ⟨?_, ?_, ?_⟩
  · rw [corrEntry_pivot df hi hj, pairedObs_pivotCol]
  · rw [corrEntry_pivot df hi hj, corrEntry_pivot df hj hi, pairedObs_swap, pearson_swap]
  · rw [corrEntry_pivot df hi hi, pairedObs_self, pearson_diag hvar]

/-- C6 amended witness at a nondegenerate two-ticker frame. -/
theorem C6_amended_witness :
    centeredSq (definedCells (pivotCol exDF2 "A")) ≠ 0 ∧
    corrEntry (dfPivot exDF2) "A" "A" = some (some 1) ∧
    corrEntry (dfPivot exDF2) "A" "B" = corrEntry (dfPivot exDF2) "B" "A" := by
  have hA : "A" ∈ pivotTickers exDF2 := by
    rw [pivotTickers_exDF2]
    decide
  have hB : "B" ∈ pivotTickers exDF2 := by
    rw [pivotTickers_exDF2]
    decide
  have hvar : centeredSq (definedCells (pivotCol exDF2 "A")) ≠ 0 := by
    have hdc : definedCells (pivotCol exDF2 "A") = [1/10, 1/5] := rfl
    rw [hdc]
    norm_num [centeredSq, qmean]
  exact ⟨hvar, (C6_correlation_amended exDF2 hA hA hvar).2.2,
    (C6_correlation_amended exDF2 hA hB hvar).2.1⟩

/-- C7: the Sharpe value of a ticker with at least two observations and
nonzero sample variance equals (mean*252 - riskFreeRate) over
(sampleStd*sqrt 252), where sampleStd is the square root of the
N-1-denominator sample variance; the report layer calls the computation with
the default risk-free rate 0.0. -/
theorem C7_sharpe_formula (df : DF) (rf : ℚ) {t : String}
    (h2 : 2 ≤ (returnsOf df t).length) (hv : svar (returnsOf df t) ≠ 0) :
    (calculate_sharpe df rf).2.lookup t =
      some (some ((qmean (returnsOf df t) * 252 - (rf : ℝ)) /
        (Real.sqrt ((centeredSq (returnsOf df t) /
            (((returnsOf df t).length : ℚ) - 1) : ℚ) : ℝ) * Real.sqrt 252))) ∧
    calculate_sharpe_report df = calculate_sharpe df 0 := by
  constructor
  · have ht : t ∈ groupTickers df := by
      apply mem_groupTickers_of_ne_nil
      intro h
      rw [h] at h2
      simp at h2
    have hl : (calculate_sharpe df rf).2.lookup t =
        some (if 2 ≤ (returnsOf df t).length then
          if svar (returnsOf df t) = 0 then none
          else some ((qmean (returnsOf df t) * 252 - (rf : ℝ)) /
            (Real.sqrt (svar (returnsOf df t)) * Real.sqrt 252))
        else none) :=
      group_map_lookup df (fun xs =>
        if 2 ≤ xs.length then
          if svar xs = 0 then none
          else some ((qmean xs * 252 - (rf : ℝ)) /
            (Real.sqrt (svar xs) * Real.sqrt 252))
        else none) ht
    rw [hl, if_pos h2, if_neg hv, svar]
  · rfl

/-- C7 witness at exDF2 with the default risk-free rate 0. -/
theorem C7_sharpe_witness :
    2 ≤ (returnsOf exDF2 "A").length ∧ svar (returnsOf exDF2 "A") ≠ 0 ∧
    (calculate_sharpe exDF2 (0 : ℚ)).2.lookup "A" =
      some (some ((qmean (returnsOf exDF2 "A") * 252 - ((0 : ℚ) : ℝ)) /
        (Real.sqrt ((centeredSq (returnsOf exDF2 "A") /
          (((returnsOf exDF2 "A").length : ℚ) - 1) : ℚ) : ℝ) * Real.sqrt 252))) := by
  have hv : svar (returnsOf exDF2 "A") ≠ 0 := by
    have h : returnsOf exDF2 "A" = [1/10, 1/5] := rfl
    rw [h]
    norm_num [svar, centeredSq, qmean]
  exact ⟨by decide, hv, (C7_sharpe_formula exDF2 0 (by decide) hv).1⟩

/-- C8: numerically degenerate tickers give undefined values, not errors
(all analytics functions here are total): a zero-variance ticker (all
returns equal, at least two observations) gets an undefined Sharpe value,
and a single-observation ticker gets undefined annualized volatility and
Sharpe values. -/
theorem C8_degenerate_undefined (df1 df2 : DF) (rf : ℚ) (t1 t2 : String)
    (n : Nat) (r : ℚ)
    (h1 : returnsOf df1 t1 = List.replicate n r) (hn : 2 ≤ n)
    (h2 : (returnsOf df2 t2).length = 1) :
    (calculate_sharpe df1 rf).2.lookup t1 = some none ∧
    (calculate_annualized_volatility df2).2.lookup t2 = some none ∧
    (calculate_sharpe df2 rf).2.lookup t2 = some none := by
  refine ⟨?_, ?_, ?_⟩
  · have ht : t1 ∈ groupTickers df1 := by
      apply mem_groupTickers_of_ne_nil
      rw [h1]
      intro hnil
      have := congrArg List.length hnil
      simp at this
      omega
    have hl : (calculate_sharpe df1 rf).2.lookup t1 =
        some (if 2 ≤ (returnsOf df1 t1).length then
          if svar (returnsOf df1 t1) = 0 then none
          else some ((qmean (returnsOf df1 t1) * 252 - (rf : ℝ)) /
            (Real.sqrt (svar (returnsOf df1 t1)) * Real.sqrt 252))
        else none) :=
      group_map_lookup df1 (fun xs =>
        if 2 ≤ xs.length then
          if svar xs = 0 then none
          else some ((qmean xs * 252 - (rf : ℝ)) /
            (Real.sqrt (svar xs) * Real.sqrt 252))
        else none) ht
    rw [hl, h1, if_pos (by simp [hn]), if_pos (svar_replicate n r)]
  · have ht : t2 ∈ groupTickers df2 := by
      apply mem_groupTickers_of_ne_nil
      intro h
      rw [h] at h2
      simp at h2
    have hl : (calculate_annualized_volatility df2).2.lookup t2 =
        some ((sstd (returnsOf df2 t2)).map (fun s => s * Real.sqrt 252)) :=
      group_map_lookup df2 (fun xs => (sstd xs).map (fun s => s * Real.sqrt 252)) ht
    rw [hl, sstd, if_neg (by omega)]
    rfl
  · have ht : t2 ∈ groupTickers df2 := by
      apply mem_groupTickers_of_ne_nil
      intro h
      rw [h] at h2
      simp at h2
    have hl : (calculate_sharpe df2 rf).2.lookup t2 =
        some (if 2 ≤ (returnsOf df2 t2).length then
          if svar (returnsOf df2 t2) = 0 then none
          else some ((qmean (returnsOf df2 t2) * 252 - (rf : ℝ)) /
            (Real.sqrt (svar (returnsOf df2 t2)) * Real.sqrt 252))
        else none) :=
      group_map_lookup df2 (fun xs =>
        if 2 ≤ xs.length then
          if svar xs = 0 then none
          else some ((qmean xs * 252 - (rf : ℝ)) /
            (Real.sqrt (svar xs) * Real.sqrt 252))
        else none) ht
    rw [hl, if_neg (by omega)]

/-- C8 witness: ticker A of exDFconst has two equal returns, and ticker B of
exDF has a single observation. -/
theorem C8_degenerate_witness :
    returnsOf exDFconst "A" = List.replicate 2 (1/10) ∧
    (returnsOf exDF "B").length = 1 ∧
    (calculate_sharpe exDFconst (0 : ℚ)).2.lookup "A" = some none ∧
    (calculate_annualized_volatility exDF).2.lookup "B" = some none :=
  ⟨rfl, by decide,
   (C8_degenerate_undefined exDFconst exDF 0 "A" "B" 2 (1/10) rfl (by decide)
     (by decide)).1,
   (C8_degenerate_undefined exDFconst exDF 0 "A" "B" 2 (1/10) rfl (by decide)
     (by decide)).2.1⟩

end Nvda
